import Mathlib

/-!
Shallow embedding of the chat server in src/Chat_app/server.py.

The server keeps two global dictionaries, `clients` (nickname to socket) and
`channels` (channel name to set of member nicknames), guarded by one global
lock.  We model Python dictionaries as association lists over `String` keys,
Python sets of strings as duplicate-free lists, sockets as natural-number
identifiers, and a `sendall` call as a pair (socket, text) appended to a list
of writes.  Every `with lock:` block of the source is one atomic step of the
model.
-/

namespace ChatApp

/-- Python `k in d` for a dict modelled as an association list. -/
def dictMem {α : Type} (d : List (String × α)) (k : String) : Bool :=
  d.any (fun p => p.1 == k)

/-- Python `d[k]` lookup (as an option) for a dict modelled as an association list. -/
def dictLookup {α : Type} (d : List (String × α)) (k : String) : Option α :=
  (d.find? (fun p => p.1 == k)).map (fun p => p.2)

/-- Python `d[k] = v`: replace the binding of `k` when present, append it otherwise. -/
def dictInsert {α : Type} (d : List (String × α)) (k : String) (v : α) : List (String × α) :=
  if dictMem d k then d.map (fun p => if p.1 == k then (k, v) else p)
  else d ++ [(k, v)]

/-- Python `del d[k]`. -/
def dictDelete {α : Type} (d : List (String × α)) (k : String) : List (String × α) :=
  d.filter (fun p => !(p.1 == k))

/-- Python `s.add(x)` on a set modelled as a duplicate-free list. -/
def setAdd (s : List String) (x : String) : List String :=
  if s.contains x then s else s ++ [x]

/-- The source pattern `if x in ch: ch.remove(x)` on a set. -/
def setDiscard (s : List String) (x : String) : List String :=
  if s.contains x then s.erase x else s

/-- The loop `for ch in channels.values(): if n in ch: ch.remove(n)` from server.py. -/
def removeFromAll (chans : List (String × List String)) (n : String) :
    List (String × List String) :=
  chans.map (fun p => (p.1, setDiscard p.2 n))

/-- The global mutable state of server.py: the dicts `clients` and `channels`. -/
structure ServerState where
  clients : List (String × Nat)
  channels : List (String × List String)
deriving DecidableEq

/-- Python truthiness of the local variable `nickname` (None or a string). -/
def nickTruthy : Option String → Bool
  | none => false
  | some s => !(s == "")

/-- Result of handling one input line: new server state, new local `nickname`,
the `sendall` calls performed, and whether the loop breaks via `/quit`. -/
structure StepResult where
  st : ServerState
  nick : Option String
  writes : List (Nat × String)
  quit : Bool
deriving DecidableEq

/-! Exact server reply lines (apostrophes written as the escape x27). -/

def takenMsg : String := "Nickname already taken. Try another one.\n"

def emptyNickMsg : String := "Nickname cannot be empty.\n"

def nickSetMsg (n : String) : String := "Nickname set to \x27" ++ n ++ "\x27.\n"

def emptyChannelMsg : String := "Channel name cannot be empty.\n"

def needNickJoinMsg : String := "You must set a nickname before joining channels.\n"

def joinedMsg (c : String) : String := "You have joined channel \x27" ++ c ++ "\x27.\n"

def sendUsageMsg : String := "Usage: /send <channel> <message>\n"

def needNickSendMsg : String := "You must set a nickname before sending messages.\n"

def mustJoinMsg (c : String) : String :=
  "You must join channel \x27" ++ c ++ "\x27 before sending messages there.\n"

def pmUsageMsg : String := "Usage: /pm <nick> <message>\n"

def needNickPmMsg : String := "You must set a nickname before sending private messages.\n"

def notFoundMsg (t : String) : String := "User \x27" ++ t ++ "\x27 not found.\n"

def channelLine (channel sender msg : String) : String :=
  "[Channel " ++ channel ++ "] " ++ sender ++ ": " ++ msg ++ "\n"

def pmLine (sender msg : String) : String :=
  "[Private] " ++ sender ++ ": " ++ msg ++ "\n"

def quitMsg : String := "Disconnecting...\n"

def unknownMsg : String := "Unknown command. Try /nick, /join, /send, /pm, or /quit.\n"

/-- server.py `broadcast_channel_message`: under the lock, a silent return when
the channel is absent, otherwise one write per member that is registered and is
not the sender. -/
def broadcast_channel_message (st : ServerState) (sender channel msg : String) :
    List (Nat × String) :=
  match dictLookup st.channels channel with
  | none => []
  | some members =>
      members.filterMap (fun n =>
        if dictMem st.clients n && !(n == sender) then
          (dictLookup st.clients n).map (fun sock => (sock, channelLine channel sender msg))
        else none)

/-- server.py `private_message`: when the target is not registered, the sender
(looked up in `clients`) is told so; otherwise the target gets the line. -/
def private_message (st : ServerState) (sender target msg : String) :
    List (Nat × String) :=
  match dictLookup st.clients target with
  | none =>
      match dictLookup st.clients sender with
      | some sock => [(sock, notFoundMsg target)]
      | none => []
  | some tsock => [(tsock, pmLine sender msg)]

/-- The body of the `/nick` branch of `handle_client_connection`, after the
argument has been parsed and stripped (the whole branch runs under the lock). -/
def nickCmd (st : ServerState) (sock : Nat) (nickname : Option String)
    (desired : String) : StepResult :=
  if desired == "" then ⟨st, nickname, [(sock, emptyNickMsg)], false⟩
  else if dictMem st.clients desired then ⟨st, nickname, [(sock, takenMsg)], false⟩
  else
    let st1 : ServerState :=
      match nickname with
      | some old =>
          if !(old == "") && dictMem st.clients old then
            { clients := dictDelete st.clients old
              channels := removeFromAll st.channels old }
          else st
      | none => st
    ⟨{ st1 with clients := dictInsert st1.clients desired sock }, some desired,
      [(sock, nickSetMsg desired)], false⟩

/-- The body of the `/join` branch of `handle_client_connection`. -/
def joinCmd (st : ServerState) (sock : Nat) (nickname : Option String)
    (channel : String) : StepResult :=
  if channel == "" then ⟨st, nickname, [(sock, emptyChannelMsg)], false⟩
  else if !(nickTruthy nickname) then ⟨st, nickname, [(sock, needNickJoinMsg)], false⟩
  else
    let nick := nickname.getD ""
    let members := (dictLookup st.channels channel).getD []
    ⟨{ st with channels := dictInsert st.channels channel (setAdd members nick) },
      nickname, [(sock, joinedMsg channel)], false⟩

/-- The body of the `/send` branch after splitting off channel and message:
the membership check (under the lock), then the broadcast. -/
def sendCmd (st : ServerState) (sock : Nat) (nickname : Option String)
    (channel msg : String) : StepResult :=
  if !(nickTruthy nickname) then ⟨st, nickname, [(sock, needNickSendMsg)], false⟩
  else
    let nick := nickname.getD ""
    if !(dictMem st.channels channel)
        || !(((dictLookup st.channels channel).getD []).contains nick) then
      ⟨st, nickname, [(sock, mustJoinMsg channel)], false⟩
    else
      ⟨st, nickname, broadcast_channel_message st nick channel msg, false⟩

/-- The body of the `/pm` branch after splitting off target and message. -/
def pmCmd (st : ServerState) (sock : Nat) (nickname : Option String)
    (target msg : String) : StepResult :=
  if !(nickTruthy nickname) then ⟨st, nickname, [(sock, needNickPmMsg)], false⟩
  else ⟨st, nickname, private_message st (nickname.getD "") target msg, false⟩

/-! Line parsing, at the level of character lists, mirroring Python
`str.strip`, `str.startswith` and `str.split(" ", k)`. -/

/-- Python `strip()`. -/
def pyStrip (l : List Char) : List Char :=
  ((l.dropWhile Char.isWhitespace).reverse.dropWhile Char.isWhitespace).reverse

/-- Python `startswith`. -/
def startsWithL : List Char → List Char → Bool
  | _, [] => true
  | [], _ :: _ => false
  | c :: cs, p :: ps => c == p && startsWithL cs ps

/-- One step of Python `split(" ", k)`: the text before the first space and
the text after it, or nothing when there is no space. -/
def breakAtSpace : List Char → Option (List Char × List Char)
  | [] => none
  | c :: cs =>
      if c == ' ' then some ([], cs)
      else
        match breakAtSpace cs with
        | none => none
        | some (a, b) => some (c :: a, b)

/-- The command dispatch of `handle_client_connection` on a stripped message
(the chain of startswith tests, in source order). -/
def dispatchMessage (st : ServerState) (sock : Nat) (nickname : Option String)
    (message : List Char) : StepResult :=
  if message.isEmpty then ⟨st, nickname, [], false⟩
  else if startsWithL message "/nick ".data then
    nickCmd st sock nickname (String.mk (pyStrip (message.drop 6)))
  else if startsWithL message "/join ".data then
    joinCmd st sock nickname (String.mk (pyStrip (message.drop 6)))
  else if startsWithL message "/send ".data then
    match breakAtSpace (message.drop 6) with
    | none => ⟨st, nickname, [(sock, sendUsageMsg)], false⟩
    | some (c, m) => sendCmd st sock nickname (String.mk c) (String.mk m)
  else if startsWithL message "/pm ".data then
    match breakAtSpace (message.drop 4) with
    | none => ⟨st, nickname, [(sock, pmUsageMsg)], false⟩
    | some (t, m) => pmCmd st sock nickname (String.mk t) (String.mk m)
  else if message == "/quit".data then
    ⟨st, nickname, [(sock, quitMsg)], true⟩
  else
    ⟨st, nickname, [(sock, unknownMsg)], false⟩

/-- One iteration of the command loop of `handle_client_connection` on a
decoded input line (everything between one `recv` and the next): strip the
line, then dispatch on the leading command word. -/
def handleLine (st : ServerState) (sock : Nat) (nickname : Option String)
    (line : String) : StepResult :=
  dispatchMessage st sock nickname (pyStrip line.data)

/-- The cleanup block after the command loop of `handle_client_connection`:
`if nickname and nickname in clients: del clients[nickname]; remove it from
every channel` (under the lock). -/
def cleanup (st : ServerState) (nickname : Option String) : ServerState :=
  if nickTruthy nickname && dictMem st.clients (nickname.getD "") then
    { clients := dictDelete st.clients (nickname.getD "")
      channels := removeFromAll st.channels (nickname.getD "") }
  else st

/-- What one session observes on its connection at each loop iteration: a
decoded input line; the end of the stream (a zero-length read, or the
ConnectionResetError that the try around recv catches and turns into a
break); or an uncaught exception in the loop body — recv raising anything
other than ConnectionResetError, data.decode() failing on undecodable bytes
(server.py line 68), or a sendall to the own socket failing — none of which
the handler catches.  The exception event is modelled at the iteration
boundary, so its state is the state after the last completed command; a
sendall failure inside a command branch likewise unwinds the handler without
reaching the post-loop cleanup. -/
inductive Event where
  | line (l : String)
  | disconnect
  | exn
deriving DecidableEq

/-- Outcome of running the command loop of one session on a list of events:
the loop terminated via break (/quit or disconnect), so the post-loop cleanup
of server.py lines 159-165 ran; or an uncaught exception unwound the handler,
in which case — there being no try/finally — the cleanup did NOT run; or the
event list was exhausted with the loop still blocked on the next read. -/
inductive LoopResult where
  | closed (st : ServerState) (writes : List (Nat × String))
  | unwound (st : ServerState) (writes : List (Nat × String))
  | running (st : ServerState) (nick : Option String) (writes : List (Nat × String))
deriving DecidableEq

/-- The command loop of `handle_client_connection` for one session: handle
lines until `/quit` or a disconnect, then run `cleanup`; an uncaught
exception propagates out of the function, skipping `cleanup`. -/
def runSession (st : ServerState) (sock : Nat) (nick : Option String) :
    List Event → LoopResult
  | [] => .running st nick []
  | .disconnect :: _ => .closed (cleanup st nick) []
  | .exn :: _ => .unwound st []
  | .line l :: rest =>
      let r := handleLine st sock nick l
      if r.quit then .closed (cleanup r.st r.nick) r.writes
      else
        match runSession r.st sock r.nick rest with
        | .closed st2 ws => .closed st2 (r.writes ++ ws)
        | .unwound st2 ws => .unwound st2 (r.writes ++ ws)
        | .running st2 n2 ws => .running st2 n2 (r.writes ++ ws)

/-- A loop variable `nickname` is sound for a state: when set, it is a
non-empty registered nickname. -/
def nickOk (st : ServerState) : Option String → Prop
  | none => True
  | some s => s ≠ "" ∧ dictMem st.clients s = true

/-- Invariants of one session loop: channel member sets are duplicate-free,
every channel member is a registered nickname, and the loop variable
`nickname`, when set, is a registered non-empty nickname. -/
def SInv (st : ServerState) (nickname : Option String) : Prop :=
  (∀ p ∈ st.channels, p.2.Nodup) ∧
  (∀ p ∈ st.channels, ∀ m ∈ p.2, dictMem st.clients m = true) ∧
  nickOk st nickname

/-! The whole server: the shared state plus the per-connection loop variable
`nickname` of every live session, keyed by socket.  Commands execute
sequentially, one lock-protected step at a time. -/

/-- Global state: the shared dictionaries and each live session. -/
structure Sys where
  server : ServerState
  sessions : List (Nat × Option String)
deriving DecidableEq

/-- The empty server at startup. -/
def sysInit : Sys := ⟨⟨[], []⟩, []⟩

/-- An externally triggered step: a new connection, one input line handled by
a session, or a disconnect of a session. -/
inductive SysEvent where
  | connect (sock : Nat)
  | line (sock : Nat) (l : String)
  | disconnect (sock : Nat)

/-- The loop variable `nickname` of the session on the given socket. -/
def findSession (sys : Sys) (sock : Nat) : Option (Option String) :=
  (sys.sessions.find? (fun p => p.1 == sock)).map (fun p => p.2)

/-- Replace the stored loop variable of the session on the given socket. -/
def sessionsUpd (ss : List (Nat × Option String)) (sock : Nat) (n : Option String) :
    List (Nat × Option String) :=
  ss.map (fun p => if p.1 == sock then (sock, n) else p)

/-- One sequential step of the whole server. -/
def sysStep (sys : Sys) : SysEvent → Sys
  | .connect sock =>
      if sys.sessions.any (fun p => p.1 == sock) then sys
      else ⟨sys.server, sys.sessions ++ [(sock, none)]⟩
  | .line sock l =>
      match findSession sys sock with
      | none => sys
      | some nick =>
          if (handleLine sys.server sock nick l).quit then
            ⟨cleanup (handleLine sys.server sock nick l).st
               (handleLine sys.server sock nick l).nick,
              sys.sessions.filter (fun p => !(p.1 == sock))⟩
          else
            ⟨(handleLine sys.server sock nick l).st,
              sessionsUpd sys.sessions sock (handleLine sys.server sock nick l).nick⟩
  | .disconnect sock =>
      match findSession sys sock with
      | none => sys
      | some nick =>
          ⟨cleanup sys.server nick, sys.sessions.filter (fun p => !(p.1 == sock))⟩

/-- States of the whole server reachable from startup. -/
inductive Reachable : Sys → Prop where
  | init : Reachable sysInit
  | step {s : Sys} (e : SysEvent) : Reachable s → Reachable (sysStep s e)

/-- The inductive invariant of the whole server: channel members are
registered; a set session nickname is non-empty and registered; channel member
sets are duplicate-free; two distinct sessions never hold the same nickname;
socket identifiers are distinct. -/
def InvSys (sys : Sys) : Prop :=
  (∀ p ∈ sys.server.channels, ∀ n ∈ p.2, dictMem sys.server.clients n = true) ∧
  (∀ q ∈ sys.sessions, nickOk sys.server q.2) ∧
  (∀ p ∈ sys.server.channels, p.2.Nodup) ∧
  (∀ q ∈ sys.sessions, ∀ q2 ∈ sys.sessions, q.1 ≠ q2.1 → q.2 = none ∨ q.2 ≠ q2.2) ∧
  (sys.sessions.map (fun p => p.1)).Nodup

/-! A lock-granular model of the `/send` path for the concurrency claim.
Each constructor is the body of one `with lock:` block of server.py: the
membership check of the `/send` branch (lines 127-133), the body of
`broadcast_channel_message` (lines 12-22), and the body of the `/join`
branch (lines 108-113). -/

/-- One lock-protected critical section. -/
inductive LockAction where
  | checkMembership (sock : Nat) (nick chan : String)
  | deliverBroadcast (nick chan msg : String)
  | joinChannel (sock : Nat) (nick chan : String)
deriving DecidableEq

/-- Execute one critical section on the shared state and the write log. -/
def execLockAction (s : ServerState × List (Nat × String)) (a : LockAction) :
    ServerState × List (Nat × String) :=
  match a with
  | .checkMembership sock nick chan =>
      if !(dictMem s.1.channels chan)
          || !(((dictLookup s.1.channels chan).getD []).contains nick) then
        (s.1, s.2 ++ [(sock, mustJoinMsg chan)])
      else s
  | .deliverBroadcast nick chan msg =>
      (s.1, s.2 ++ broadcast_channel_message s.1 nick chan msg)
  | .joinChannel sock nick chan =>
      ({ s.1 with
          channels := dictInsert s.1.channels chan
            (setAdd ((dictLookup s.1.channels chan).getD []) nick) },
        s.2 ++ [(sock, joinedMsg chan)])

/-- Execute a schedule of critical sections in order. -/
def execLockActions (s : ServerState × List (Nat × String)) (acts : List LockAction) :
    ServerState × List (Nat × String) :=
  acts.foldl execLockAction s

/-- The critical sections a worker runs for `/send` when the membership check
passes: the check is one lock acquisition, and `broadcast_channel_message`
then acquires the lock a second time. -/
def sendLockSections (sock : Nat) (nick chan msg : String) : List LockAction :=
  [.checkMembership sock nick chan, .deliverBroadcast nick chan msg]

/-- `Ilv xs ys zs`: the schedule `zs` is an interleaving of the action lists
`xs` and `ys` of two workers, preserving the order within each worker. -/
inductive Ilv : List LockAction → List LockAction → List LockAction → Prop where
  | nil : Ilv [] [] []
  | consL (a : LockAction) {xs ys zs : List LockAction} :
      Ilv xs ys zs → Ilv (a :: xs) ys (a :: zs)
  | consR (a : LockAction) {xs ys zs : List LockAction} :
      Ilv xs ys zs → Ilv xs (a :: ys) (a :: zs)

/-! Basic lemmas about the dictionary and set operations. -/

theorem contains_iff {s : List String} {x : String} :
    s.contains x = true ↔ x ∈ s := List.elem_iff

theorem dictMem_iff {α : Type} {d : List (String × α)} {k : String} :
    dictMem d k = true ↔ ∃ v, (k, v) ∈ d := by
  unfold dictMem
  rw [List.any_eq_true]
  constructor
  · rintro ⟨⟨a, v⟩, hp, hb⟩
    rw [beq_iff_eq] at hb
    exact ⟨v, by rw [← hb]; exact hp⟩
  · rintro ⟨v, hv⟩
    exact ⟨(k, v), hv, by simp⟩

theorem dictMem_eq_false_iff {α : Type} {d : List (String × α)} {k : String} :
    dictMem d k = false ↔ ∀ v, (k, v) ∉ d := by
  rw [Bool.eq_false_iff, Ne, dictMem_iff]
  exact not_exists

theorem dictMem_iff_mem_keys {α : Type} {d : List (String × α)} {k : String} :
    dictMem d k = true ↔ k ∈ d.map (fun p => p.1) := by
  rw [dictMem_iff]
  constructor
  · rintro ⟨v, hv⟩
    exact List.mem_map_of_mem _ hv
  · intro h
    rw [List.mem_map] at h
    obtain ⟨p, hp, hk⟩ := h
    exact ⟨p.2, by rw [← hk, Prod.mk.eta]; exact hp⟩

theorem dictLookup_mem {α : Type} {d : List (String × α)} {k : String} {v : α}
    (h : dictLookup d k = some v) : (k, v) ∈ d := by
  unfold dictLookup at h
  rw [Option.map_eq_some'] at h
  obtain ⟨⟨a, w⟩, hf, hw⟩ := h
  have hm := List.mem_of_find?_eq_some hf
  have hp := List.find?_some hf
  rw [beq_iff_eq] at hp
  cases hw
  rw [← hp]
  exact hm

theorem dictMem_of_dictLookup {α : Type} {d : List (String × α)} {k : String} {v : α}
    (h : dictLookup d k = some v) : dictMem d k = true :=
  dictMem_iff.mpr ⟨v, dictLookup_mem h⟩

theorem dictLookup_isSome {α : Type} {d : List (String × α)} {k : String} :
    (dictLookup d k).isSome = dictMem d k := by
  unfold dictLookup dictMem
  rw [Bool.eq_iff_iff]
  simp [List.find?_isSome, List.any_eq_true]

theorem dictLookup_eq_none_iff {α : Type} {d : List (String × α)} {k : String} :
    dictLookup d k = none ↔ dictMem d k = false := by
  constructor
  · intro h
    rw [← dictLookup_isSome, h]
    rfl
  · intro h
    cases hl : dictLookup d k with
    | none => rfl
    | some v => rw [← dictLookup_isSome, hl] at h; simp at h

theorem mem_dictInsert {α : Type} {d : List (String × α)} {k : String} {v : α}
    {p : String × α} (h : p ∈ dictInsert d k v) : p ∈ d ∨ p = (k, v) := by
  unfold dictInsert at h
  split at h
  · rw [List.mem_map] at h
    obtain ⟨q, hq, hfq⟩ := h
    split at hfq
    · right; exact hfq.symm
    · left; rw [← hfq]; exact hq
  · rw [List.mem_append] at h
    rcases h with h | h
    · left; exact h
    · right; simpa using h

theorem mem_dictInsert_of_ne {α : Type} {d : List (String × α)} {k : String} {v : α}
    {p : String × α} (hne : (p.1 == k) = false) (h : p ∈ d) : p ∈ dictInsert d k v := by
  unfold dictInsert
  split
  · rw [List.mem_map]
    exact ⟨p, h, by rw [if_neg (by simp [hne])]⟩
  · exact List.mem_append_left _ h

theorem dictMem_dictInsert_self {α : Type} (d : List (String × α)) (k : String) (v : α) :
    dictMem (dictInsert d k v) k = true := by
  unfold dictInsert
  split
  · next hmem =>
    rw [dictMem_iff] at hmem ⊢
    obtain ⟨w, hw⟩ := hmem
    refine ⟨v, ?_⟩
    rw [List.mem_map]
    exact ⟨(k, w), hw, by simp⟩
  · rw [dictMem_iff]
    exact ⟨v, List.mem_append_right _ (by simp)⟩

theorem dictMem_dictInsert_of_ne {α : Type} {d : List (String × α)} {k m : String} {v : α}
    (hne : m ≠ k) : dictMem (dictInsert d k v) m = dictMem d m := by
  rw [Bool.eq_iff_iff, dictMem_iff, dictMem_iff]
  constructor
  · rintro ⟨w, hw⟩
    rcases mem_dictInsert hw with h | h
    · exact ⟨w, h⟩
    · simp only [Prod.mk.injEq] at h
      exact absurd h.1 hne
  · rintro ⟨w, hw⟩
    exact ⟨w, mem_dictInsert_of_ne (by simpa using hne) hw⟩

theorem mem_dictDelete_iff {α : Type} {d : List (String × α)} {k : String}
    {p : String × α} : p ∈ dictDelete d k ↔ p ∈ d ∧ p.1 ≠ k := by
  unfold dictDelete
  rw [List.mem_filter, Bool.not_eq_true']
  simp

theorem dictMem_dictDelete_self {α : Type} (d : List (String × α)) (k : String) :
    dictMem (dictDelete d k) k = false := by
  rw [dictMem_eq_false_iff]
  intro v hv
  rw [mem_dictDelete_iff] at hv
  exact hv.2 rfl

theorem dictMem_dictDelete_of_ne {α : Type} {d : List (String × α)} {k m : String}
    (hne : m ≠ k) : dictMem (dictDelete d k) m = dictMem d m := by
  rw [Bool.eq_iff_iff, dictMem_iff, dictMem_iff]
  constructor
  · rintro ⟨w, hw⟩
    exact ⟨w, (mem_dictDelete_iff.mp hw).1⟩
  · rintro ⟨w, hw⟩
    exact ⟨w, mem_dictDelete_iff.mpr ⟨hw, hne⟩⟩

theorem mem_setAdd {s : List String} {x m : String} :
    m ∈ setAdd s x ↔ m ∈ s ∨ m = x := by
  unfold setAdd
  split
  · next h =>
    rw [contains_iff] at h
    constructor
    · exact Or.inl
    · rintro (hm | rfl)
      · exact hm
      · exact h
  · rw [List.mem_append, List.mem_singleton]

theorem nodup_setAdd {s : List String} {x : String} (h : s.Nodup) : (setAdd s x).Nodup := by
  unfold setAdd
  split
  · exact h
  · next hc =>
    rw [List.nodup_append]
    refine ⟨h, List.nodup_singleton x, ?_⟩
    intro a ha hax
    rw [List.mem_singleton] at hax
    subst hax
    exact hc (contains_iff.mpr ha)

theorem mem_setDiscard {s : List String} {x m : String} (h : m ∈ setDiscard s x) :
    m ∈ s := by
  unfold setDiscard at h
  split at h
  · exact List.mem_of_mem_erase h
  · exact h

theorem not_mem_setDiscard_self {s : List String} {x : String} (hnd : s.Nodup) :
    x ∉ setDiscard s x := by
  unfold setDiscard
  split
  · intro hx
    rw [hnd.mem_erase_iff] at hx
    exact hx.1 rfl
  · next hc =>
    intro hx
    exact hc (contains_iff.mpr hx)

theorem mem_setDiscard_of_ne {s : List String} {x m : String} (hne : m ≠ x) :
    m ∈ setDiscard s x ↔ m ∈ s := by
  unfold setDiscard
  split
  · exact List.mem_erase_of_ne hne
  · exact Iff.rfl

theorem nodup_setDiscard {s : List String} {x : String} (h : s.Nodup) :
    (setDiscard s x).Nodup := by
  unfold setDiscard
  split
  · exact h.erase x
  · exact h

theorem dictLookup_mapReplace {α : Type} {d : List (String × α)} {k : String} {v : α}
    (hmem : dictMem d k = true) :
    dictLookup (d.map (fun p => if p.1 == k then (k, v) else p)) k = some v := by
  induction d with
  | nil => simp [dictMem] at hmem
  | cons p d ih =>
    by_cases hpk : (p.1 == k) = true
    · rw [List.map_cons, if_pos hpk]
      unfold dictLookup
      rw [List.find?_cons_of_pos _ (by simp)]
      rfl
    · have hmem' : dictMem d k = true := by
        simp only [dictMem, List.any_cons, (Bool.not_eq_true _).mp hpk, Bool.false_or] at hmem
        exact hmem
      rw [List.map_cons, if_neg hpk]
      unfold dictLookup
      rw [List.find?_cons_of_neg _ (by simpa using hpk)]
      exact ih hmem'

theorem dictLookup_appendNew {α : Type} {d : List (String × α)} {k : String} {v : α}
    (hmem : dictMem d k = false) :
    dictLookup (d ++ [(k, v)]) k = some v := by
  induction d with
  | nil =>
    unfold dictLookup
    rw [List.nil_append, List.find?_cons_of_pos _ (by simp)]
    rfl
  | cons p d ih =>
    have hpk : (p.1 == k) = false := by
      by_contra hc
      rw [Bool.not_eq_false] at hc
      simp [dictMem, List.any_cons, hc] at hmem
    have hmem' : dictMem d k = false := by
      simp only [dictMem, List.any_cons, hpk, Bool.false_or] at hmem
      exact hmem
    unfold dictLookup
    rw [List.cons_append, List.find?_cons_of_neg _ (by simp [hpk])]
    exact ih hmem'

theorem dictLookup_dictInsert_self {α : Type} (d : List (String × α)) (k : String) (v : α) :
    dictLookup (dictInsert d k v) k = some v := by
  unfold dictInsert
  split
  · next hmem => exact dictLookup_mapReplace hmem
  · next hmem => exact dictLookup_appendNew (Bool.not_eq_true _ |>.mp hmem)

theorem mapReplace_eq_self_of_no_key {α : Type} {d : List (String × α)} {k : String} {v : α}
    (h : ∀ q ∈ d, (q.1 == k) = false) :
    d.map (fun p => if p.1 == k then (k, v) else p) = d := by
  induction d with
  | nil => rfl
  | cons p d ih =>
    rw [List.map_cons, if_neg (by simp [h p (List.mem_cons_self p d)]),
      ih (fun q hq => h q (List.mem_cons_of_mem p hq))]

theorem mapReplace_cancel {α : Type} {d : List (String × α)} {k : String} {v : α}
    (hkeys : (d.map (fun p => p.1)).Nodup) (hv : dictLookup d k = some v) :
    d.map (fun p => if p.1 == k then (k, v) else p) = d := by
  induction d with
  | nil => rfl
  | cons p d ih =>
    rw [List.map_cons, List.nodup_cons] at hkeys
    by_cases hpk : (p.1 == k) = true
    · have hk : p.1 = k := by rwa [beq_iff_eq] at hpk
      have hkv : p.2 = v := by
        unfold dictLookup at hv
        rw [List.find?_cons_of_pos _ (by exact hpk)] at hv
        exact Option.some.inj hv
      have hrest : ∀ q ∈ d, (q.1 == k) = false := by
        intro q hq
        rw [beq_eq_false_iff_ne]
        intro hqk
        exact hkeys.1 (by rw [hk, ← hqk]; exact List.mem_map_of_mem _ hq)
      rw [List.map_cons, if_pos hpk, mapReplace_eq_self_of_no_key hrest, ← hk, ← hkv]
    · have hv' : dictLookup d k = some v := by
        unfold dictLookup at hv ⊢
        rwa [List.find?_cons_of_neg _ (by simpa using hpk)] at hv
      rw [List.map_cons, if_neg hpk, ih hkeys.2 hv']

theorem dictInsert_lookup_cancel {α : Type} {d : List (String × α)} {k : String} {v : α}
    (hkeys : (d.map (fun p => p.1)).Nodup) (hv : dictLookup d k = some v) :
    dictInsert d k v = d := by
  unfold dictInsert
  rw [if_pos (dictMem_of_dictLookup hv)]
  exact mapReplace_cancel hkeys hv

theorem keys_dictInsert {α : Type} (d : List (String × α)) (k : String) (v : α) :
    (dictInsert d k v).map (fun p => p.1) =
      if dictMem d k then d.map (fun p => p.1) else d.map (fun p => p.1) ++ [k] := by
  unfold dictInsert
  split
  · next h =>
    rw [List.map_map]
    apply List.map_congr_left
    intro p _
    by_cases hpk : (p.1 == k) = true
    · simp only [Function.comp, if_pos hpk]
      exact ((beq_iff_eq).mp hpk).symm
    · simp only [Function.comp, if_neg hpk]
  · next h =>
    rw [List.map_append]
    rfl

theorem keysNodup_dictInsert {α : Type} {d : List (String × α)} {k : String} {v : α}
    (h : (d.map (fun p => p.1)).Nodup) :
    ((dictInsert d k v).map (fun p => p.1)).Nodup := by
  rw [keys_dictInsert]
  split
  · exact h
  · next hm =>
    rw [List.nodup_append]
    refine ⟨h, List.nodup_singleton k, ?_⟩
    intro a ha hak
    rw [List.mem_singleton] at hak
    subst hak
    exact hm (dictMem_iff_mem_keys.mpr ha)

/-! Further lemmas about set insertion used by claim C8. -/

theorem setAdd_contains_self (s : List String) (x : String) :
    (setAdd s x).contains x = true :=
  contains_iff.mpr (mem_setAdd.mpr (Or.inr rfl))

theorem setAdd_idem (s : List String) (x : String) :
    setAdd (setAdd s x) x = setAdd s x := by
  show (if (setAdd s x).contains x then setAdd s x else setAdd s x ++ [x]) = setAdd s x
  rw [if_pos (setAdd_contains_self s x)]

/-! Claim C1. -/

/-- Claim C1 (counterexample): in the state whose single registry entry is
("eve", 0), the requester on socket 0 itself holds "eve" and no other session
does; yet the line "/nick eve" from that session draws the name-taken error
and the rename does not succeed, refuting both the only-if direction of the
claim and its idempotent self-re-registration clause. -/
theorem C1_counterexample :
    dictLookup (ServerState.mk [("eve", 0)] []).clients "eve" = some 0 ∧
    (ServerState.mk [("eve", 0)] []).clients.length = 1 ∧
    handleLine (ServerState.mk [("eve", 0)] []) 0 (some "eve") "/nick eve" =
      ⟨⟨[("eve", 0)], []⟩, some "eve", [(0, takenMsg)], false⟩ := by
  exact ⟨rfl, rfl, rfl⟩

/-- Claim C1 (amended): for a non-empty nickname n, /nick n fails with the
name-taken line, leaving the state, the local nickname and the quit flag
unchanged, if and only if SOME active session currently holds n, including
the requester itself; re-registering the very name the session holds is thus
rejected with the same error, so no unregistration, transient or otherwise,
ever occurs on that path. -/
theorem C1_nick_taken_iff (st : ServerState) (sock : Nat) (nickname : Option String)
    (n : String) (hn : n ≠ "") :
    nickCmd st sock nickname n = ⟨st, nickname, [(sock, takenMsg)], false⟩ ↔
      dictMem st.clients n = true := by
  have hne : (n == "") = false := by rwa [beq_eq_false_iff_ne]
  constructor
  · intro h
    by_contra hmem
    rw [Bool.not_eq_true] at hmem
    unfold nickCmd at h
    rw [if_neg (by simp [hne])] at h
    rw [if_neg (by simp [hmem])] at h
    simp only [StepResult.mk.injEq] at h
    have hmem2 : dictMem st.clients n = true := by
      rw [← h.1]
      exact dictMem_dictInsert_self _ _ _
    rw [hmem2] at hmem
    simp at hmem
  · intro hmem
    unfold nickCmd
    rw [if_neg (by simp [hne]), if_pos hmem]

/-- Witness for C1: a fresh session on socket 1 asking for the taken name
"eve" fails with exactly the name-taken reply and no state change. -/
theorem C1_witness :
    nickCmd ⟨[("eve", 0)], []⟩ 1 none "eve" =
      ⟨⟨[("eve", 0)], []⟩, none, [(1, takenMsg)], false⟩ :=
  (C1_nick_taken_iff ⟨[("eve", 0)], []⟩ 1 none "eve" (by decide)).mpr (by decide)

/-! Claim C3. -/

/-- Claim C3: for an authenticated session with nickname nk, /send c m
delivers (through broadcast_channel_message, which writes only to other
members) exactly when nk is a member of c at the moment of the send; when c
is absent from the registry or nk is not a member, the sender alone receives
exactly the must-join line, no other socket is written, and the state, the
nickname and the quit flag are unchanged. -/
theorem C3_send_gating (st : ServerState) (sock : Nat) (nk c m : String)
    (hk : (nk == "") = false) :
    (dictLookup st.channels c = none →
        sendCmd st sock (some nk) c m = ⟨st, some nk, [(sock, mustJoinMsg c)], false⟩) ∧
    (∀ ms, dictLookup st.channels c = some ms → nk ∉ ms →
        sendCmd st sock (some nk) c m = ⟨st, some nk, [(sock, mustJoinMsg c)], false⟩) ∧
    (∀ ms, dictLookup st.channels c = some ms → nk ∈ ms →
        sendCmd st sock (some nk) c m =
          ⟨st, some nk, broadcast_channel_message st nk c m, false⟩) := by
  refine ⟨?_, ?_, ?_⟩
  · intro hnone
    have hmem : dictMem st.channels c = false := dictLookup_eq_none_iff.mp hnone
    simp [sendCmd, nickTruthy, hk, hmem]
  · intro ms hlook hnotin
    have hmem : dictMem st.channels c = true := dictMem_of_dictLookup hlook
    have hcon : ms.contains nk = false := by
      rw [Bool.eq_false_iff]
      intro hc
      exact hnotin (contains_iff.mp hc)
    simp [sendCmd, nickTruthy, hk, hmem, hlook, hcon, hnotin]
  · intro ms hlook hin
    have hmem : dictMem st.channels c = true := dictMem_of_dictLookup hlook
    have hcon : ms.contains nk = true := contains_iff.mpr hin
    simp [sendCmd, nickTruthy, hk, hmem, hlook, hcon, hin]

/-- Witness for C3: alice has not joined lobby (bob is its only member), so
her /send is rejected with exactly the must-join line; after the membership
is present, the same send broadcasts. -/
theorem C3_witness :
    sendCmd ⟨[("alice", 0), ("bob", 1)], [("lobby", ["bob"])]⟩ 0 (some "alice") "lobby" "hi" =
      ⟨⟨[("alice", 0), ("bob", 1)], [("lobby", ["bob"])]⟩, some "alice",
        [(0, mustJoinMsg "lobby")], false⟩ :=
  (C3_send_gating ⟨[("alice", 0), ("bob", 1)], [("lobby", ["bob"])]⟩ 0 "alice" "lobby" "hi"
    (by decide)).2.1 ["bob"] (by decide) (by decide)

/-! Claim C6. -/

/-- Claim C6: when the target nickname has no active session, /pm writes
exactly the not-found line to the sender and nothing else; when the target is
active, exactly the private-message line is written to the target handle; and
the /pm command never changes the server state, the local nickname or the
quit flag. -/
theorem C6_pm_routing (st : ServerState) (sender target m : String) (ssock : Nat)
    (hs : dictLookup st.clients sender = some ssock) :
    (dictLookup st.clients target = none →
        private_message st sender target m = [(ssock, notFoundMsg target)]) ∧
    (∀ tsock, dictLookup st.clients target = some tsock →
        private_message st sender target m = [(tsock, pmLine sender m)]) ∧
    (∀ sock nickname, (pmCmd st sock nickname target m).st = st ∧
        (pmCmd st sock nickname target m).nick = nickname ∧
        (pmCmd st sock nickname target m).quit = false) := by
  refine ⟨?_, ?_, ?_⟩
  · intro ht
    simp [private_message, ht, hs]
  · intro tsock ht
    simp [private_message, ht]
  · intro sock nickname
    unfold pmCmd
    split
    · exact ⟨rfl, rfl, rfl⟩
    · exact ⟨rfl, rfl, rfl⟩

/-- Witness for C6: alice private-messages the absent "ghost" and receives
exactly the not-found line. -/
theorem C6_witness :
    private_message ⟨[("alice", 0)], []⟩ "alice" "ghost" "hello" =
      [(0, notFoundMsg "ghost")] :=
  (C6_pm_routing ⟨[("alice", 0)], []⟩ "alice" "ghost" "hello" 0 (by decide)).1 (by decide)

/-! Claim C8. -/

/-- Claim C8: for an authenticated session, /join c stores under c the old
member set (empty when the channel was absent, so the channel is created)
with the nickname added; and joining the same channel twice yields exactly
the state of joining it once. -/
theorem C8_join_idempotent (st : ServerState) (sock : Nat) (nk c : String)
    (hk : (nk == "") = false) (hc : (c == "") = false)
    (hkeys : (st.channels.map (fun p => p.1)).Nodup) :
    dictLookup (joinCmd st sock (some nk) c).st.channels c =
        some (setAdd ((dictLookup st.channels c).getD []) nk) ∧
    (joinCmd (joinCmd st sock (some nk) c).st sock (some nk) c).st =
        (joinCmd st sock (some nk) c).st := by
  have htr : nickTruthy (some nk) = true := by simp [nickTruthy, hk]
  have h1 : (joinCmd st sock (some nk) c).st =
      ⟨st.clients, dictInsert st.channels c (setAdd ((dictLookup st.channels c).getD []) nk)⟩ := by
    simp [joinCmd, hc, htr]
  have hlook1 : dictLookup (joinCmd st sock (some nk) c).st.channels c =
      some (setAdd ((dictLookup st.channels c).getD []) nk) := by
    rw [h1]
    exact dictLookup_dictInsert_self _ _ _
  refine ⟨hlook1, ?_⟩
  have h2 : (joinCmd (joinCmd st sock (some nk) c).st sock (some nk) c).st =
      ⟨(joinCmd st sock (some nk) c).st.clients,
        dictInsert (joinCmd st sock (some nk) c).st.channels c
          (setAdd (((dictLookup (joinCmd st sock (some nk) c).st.channels c).getD []) ) nk)⟩ := by
    simp [joinCmd, hc, htr]
  rw [h2, hlook1]
  have hkeys1 : ((joinCmd st sock (some nk) c).st.channels.map (fun p => p.1)).Nodup := by
    rw [h1]
    exact keysNodup_dictInsert hkeys
  have : setAdd (setAdd ((dictLookup st.channels c).getD []) nk) nk =
      setAdd ((dictLookup st.channels c).getD []) nk := setAdd_idem _ _
  rw [Option.getD_some, this,
    dictInsert_lookup_cancel hkeys1 hlook1]

/-- Witness for C8: bob joins the absent channel lobby; the channel is
created with member set [bob], and a second join leaves the state unchanged. -/
theorem C8_witness :
    dictLookup (joinCmd ⟨[("bob", 1)], []⟩ 1 (some "bob") "lobby").st.channels "lobby" =
        some (setAdd ((dictLookup (⟨[("bob", 1)], []⟩ : ServerState).channels "lobby").getD []) "bob") ∧
    (joinCmd (joinCmd ⟨[("bob", 1)], []⟩ 1 (some "bob") "lobby").st 1 (some "bob") "lobby").st =
        (joinCmd ⟨[("bob", 1)], []⟩ 1 (some "bob") "lobby").st :=
  C8_join_idempotent ⟨[("bob", 1)], []⟩ 1 "bob" "lobby" (by decide) (by decide) (by decide)

/-! Claim C10. -/

/-- Claim C10: a line whose stripped form is the bare word "/nick", "/join",
"/send" or "/pm" (no space-separated argument) draws exactly the
unknown-command reply, not a usage or empty-argument error; and a line whose
stripped form is "/quit" followed by any further characters also draws the
unknown-command reply and does not disconnect. -/
theorem C10_bare_commands :
    (∀ st sock nick, handleLine st sock nick "/nick" =
        ⟨st, nick, [(sock, unknownMsg)], false⟩) ∧
    (∀ st sock nick, handleLine st sock nick "/join" =
        ⟨st, nick, [(sock, unknownMsg)], false⟩) ∧
    (∀ st sock nick, handleLine st sock nick "/send" =
        ⟨st, nick, [(sock, unknownMsg)], false⟩) ∧
    (∀ st sock nick, handleLine st sock nick "/pm" =
        ⟨st, nick, [(sock, unknownMsg)], false⟩) ∧
    (∀ st sock nick (l : String) (t : List Char), t ≠ [] →
        pyStrip l.data = "/quit".data ++ t →
        handleLine st sock nick l = ⟨st, nick, [(sock, unknownMsg)], false⟩) := by
  refine ⟨fun st sock nick => rfl, fun st sock nick => rfl,
    fun st sock nick => rfl, fun st sock nick => rfl, ?_⟩
  intro st sock nick l t ht hstrip
  have hq : "/quit".data = ['/', 'q', 'u', 'i', 't'] := rfl
  rw [hq] at hstrip
  have hqn : (('q' : Char) == 'n') = false := by decide
  have hqj : (('o' : Char) == 'j') = false := by decide
  have hqs : (('q' : Char) == 's') = false := by decide
  have hqp : (('q' : Char) == 'p') = false := by decide
  have hbeq : ((('/' :: 'q' :: 'u' :: 'i' :: 't' :: t : List Char)) == "/quit".data) = false := by
    rw [beq_eq_false_iff_ne, hq]
    simpa using ht
  unfold handleLine
  rw [hstrip]
  simp [dispatchMessage, startsWithL, hqn, hqj, hqs, hqp, hbeq]

/-- Witness for C10: the line "/quit now" (stripped form "/quit" plus the
characters " now") draws the unknown-command reply and does not disconnect. -/
theorem C10_witness :
    handleLine ⟨[], []⟩ 5 none "/quit now" =
      ⟨⟨[], []⟩, none, [(5, unknownMsg)], false⟩ :=
  C10_bare_commands.2.2.2.2 ⟨[], []⟩ 5 none "/quit now" [' ', 'n', 'o', 'w']
    (by decide) (by decide)

/-! Claim C2. -/

/-- Claim C2: for a channel c present in the registry whose member set is
duplicate-free, fully registered and whose handles are not shared between
nicknames, broadcast writes the formatted channel line, exactly once, to the
handle of every member other than the sender; every performed write carries
that exact line and goes to the handle of some member other than the sender;
the handle of the sender never receives a write; and for a channel name
absent from the registry the broadcast performs no write at all (it touches
no state by construction, being a function of the state into writes). -/
theorem C2_broadcast (st : ServerState) (s c m : String) (ms : List String)
    (hc : dictLookup st.channels c = some ms)
    (hnd : ms.Nodup)
    (hreg : ∀ n ∈ ms, dictMem st.clients n = true)
    (hinj : ∀ p ∈ st.clients, ∀ q ∈ st.clients, p.2 = q.2 → p.1 = q.1) :
    (∀ n ∈ ms, n ≠ s → ∃ k, dictLookup st.clients n = some k ∧
        (k, channelLine c s m) ∈ broadcast_channel_message st s c m) ∧
    (∀ k msg, (k, msg) ∈ broadcast_channel_message st s c m →
        msg = channelLine c s m ∧ ∃ n ∈ ms, n ≠ s ∧ dictLookup st.clients n = some k) ∧
    (broadcast_channel_message st s c m).Nodup ∧
    (∀ k, dictLookup st.clients s = some k →
        ∀ msg, (k, msg) ∉ broadcast_channel_message st s c m) ∧
    (∀ c2, dictLookup st.channels c2 = none → broadcast_channel_message st s c2 m = []) := by
  have hbc : broadcast_channel_message st s c m = ms.filterMap (fun n =>
      if dictMem st.clients n && !(n == s) then
        (dictLookup st.clients n).map (fun sock => (sock, channelLine c s m))
      else none) := by
    unfold broadcast_channel_message
    rw [hc]
  refine ⟨?_, ?_, ?_, ?_, ?_⟩
  · intro n hn hns
    cases hl : dictLookup st.clients n with
    | none =>
      have hr := hreg n hn
      rw [dictLookup_eq_none_iff] at hl
      rw [hr] at hl
      simp at hl
    | some k =>
      refine ⟨k, rfl, ?_⟩
      rw [hbc, List.mem_filterMap]
      refine ⟨n, hn, ?_⟩
      have hcond : (dictMem st.clients n && !(n == s)) = true := by
        rw [hreg n hn, Bool.true_and, Bool.not_eq_true', beq_eq_false_iff_ne]
        exact hns
      rw [if_pos hcond, hl]
      rfl
  · intro k msg hmem
    rw [hbc, List.mem_filterMap] at hmem
    obtain ⟨n, hn, hfn⟩ := hmem
    split at hfn
    · next hcond =>
      rw [Option.map_eq_some'] at hfn
      obtain ⟨k0, hk0, hpair⟩ := hfn
      have hkk : k0 = k := ((Prod.mk.injEq _ _ _ _).mp hpair).1
      have hmsg : channelLine c s m = msg := ((Prod.mk.injEq _ _ _ _).mp hpair).2
      subst hkk
      refine ⟨hmsg.symm, n, hn, ?_, hk0⟩
      have hns := hcond
      simp only [Bool.and_eq_true, Bool.not_eq_true', beq_eq_false_iff_ne] at hns
      exact hns.2
    · simp at hfn
  · rw [hbc]
    refine List.Nodup.filterMap ?_ hnd
    intro a a2 b hb hb2
    simp only [Option.mem_def] at hb hb2
    split at hb
    · rw [Option.map_eq_some'] at hb
      obtain ⟨k1, hk1, hb1⟩ := hb
      split at hb2
      · rw [Option.map_eq_some'] at hb2
        obtain ⟨k2, hk2, hb2x⟩ := hb2
        have hk12 : k1 = k2 := by
          rw [← hb2x] at hb1
          exact ((Prod.mk.injEq _ _ _ _).mp hb1).1
        exact hinj (a, k1) (dictLookup_mem hk1) (a2, k2) (dictLookup_mem hk2) hk12
      · simp at hb2
    · simp at hb
  · intro k hks msg hmem
    rw [hbc, List.mem_filterMap] at hmem
    obtain ⟨n, hn, hfn⟩ := hmem
    split at hfn
    · next hcond =>
      rw [Option.map_eq_some'] at hfn
      obtain ⟨k0, hk0, hpair⟩ := hfn
      have hkk : k0 = k := ((Prod.mk.injEq _ _ _ _).mp hpair).1
      subst hkk
      have hns : n ≠ s := by
        have hx := hcond
        simp only [Bool.and_eq_true, Bool.not_eq_true', beq_eq_false_iff_ne] at hx
        exact hx.2
      exact hns (hinj (n, k0) (dictLookup_mem hk0) (s, k0) (dictLookup_mem hks) rfl)
    · simp at hfn
  · intro c2 hc2
    unfold broadcast_channel_message
    rw [hc2]

/-- Witness for C2: with alice, bob and carol all in lobby, a broadcast from
alice reaches the handle of bob. -/
theorem C2_witness :
    ∃ k, dictLookup (⟨[("alice", 0), ("bob", 1), ("carol", 2)],
        [("lobby", ["alice", "bob", "carol"])]⟩ : ServerState).clients "bob" = some k ∧
      (k, channelLine "lobby" "alice" "hi") ∈
        broadcast_channel_message ⟨[("alice", 0), ("bob", 1), ("carol", 2)],
          [("lobby", ["alice", "bob", "carol"])]⟩ "alice" "lobby" "hi" :=
  (C2_broadcast _ "alice" "lobby" "hi" ["alice", "bob", "carol"]
    (by decide) (by decide) (by decide) (by decide)).1 "bob" (by decide) (by decide)

/-! Claim C5. -/

/-- Claim C5: a session holding nickname a that runs /nick b with b unclaimed
performs the complete rename as one lock-protected step of the model:
afterwards a is unregistered, b is registered, a is absent from every channel
member set, the local nickname is b, and the only write is the success line;
because the whole branch is a single atomic step, no state with both names
registered or with neither is ever exposed. -/
theorem C5_rename_atomic (st : ServerState) (sock : Nat) (a b : String)
    (ha : a ≠ "") (hb : b ≠ "")
    (hbfree : dictMem st.clients b = false) (hareg : dictMem st.clients a = true)
    (hnd : ∀ p ∈ st.channels, p.2.Nodup) :
    dictMem (nickCmd st sock (some a) b).st.clients a = false ∧
    dictMem (nickCmd st sock (some a) b).st.clients b = true ∧
    (∀ p ∈ (nickCmd st sock (some a) b).st.channels, a ∉ p.2) ∧
    (nickCmd st sock (some a) b).nick = some b ∧
    (nickCmd st sock (some a) b).writes = [(sock, nickSetMsg b)] ∧
    (nickCmd st sock (some a) b).quit = false := by
  have hbne : (b == "") = false := by rwa [beq_eq_false_iff_ne]
  have hane : (a == "") = false := by rwa [beq_eq_false_iff_ne]
  have hab : a ≠ b := by
    intro h
    rw [h] at hareg
    rw [hareg] at hbfree
    simp at hbfree
  have hres : nickCmd st sock (some a) b =
      ⟨⟨dictInsert (dictDelete st.clients a) b sock, removeFromAll st.channels a⟩,
        some b, [(sock, nickSetMsg b)], false⟩ := by
    unfold nickCmd
    rw [if_neg (by simp [hbne]), if_neg (by simp [hbfree])]
    simp [hane, hareg]
  rw [hres]
  refine ⟨?_, ?_, ?_, rfl, rfl, rfl⟩
  · rw [show (⟨⟨dictInsert (dictDelete st.clients a) b sock, removeFromAll st.channels a⟩,
      some b, [(sock, nickSetMsg b)], false⟩ : StepResult).st.clients =
        dictInsert (dictDelete st.clients a) b sock from rfl,
      dictMem_dictInsert_of_ne hab, dictMem_dictDelete_self]
  · exact dictMem_dictInsert_self _ _ _
  · intro p hp
    have hp2 : p ∈ removeFromAll st.channels a := hp
    unfold removeFromAll at hp2
    rw [List.mem_map] at hp2
    obtain ⟨q, hq, hpq⟩ := hp2
    rw [← hpq]
    exact not_mem_setDiscard_self (hnd q hq)

/-- Witness for C5: alice, the only member of lobby, renames to the free name
carol; afterwards alice is gone from the registry and from lobby, and carol
is registered. -/
theorem C5_witness :
    dictMem (nickCmd ⟨[("alice", 0)], [("lobby", ["alice"])]⟩ 0
        (some "alice") "carol").st.clients "alice" = false ∧
    dictMem (nickCmd ⟨[("alice", 0)], [("lobby", ["alice"])]⟩ 0
        (some "alice") "carol").st.clients "carol" = true ∧
    (∀ p ∈ (nickCmd ⟨[("alice", 0)], [("lobby", ["alice"])]⟩ 0
        (some "alice") "carol").st.channels, "alice" ∉ p.2) ∧
    (nickCmd ⟨[("alice", 0)], [("lobby", ["alice"])]⟩ 0
        (some "alice") "carol").nick = some "carol" ∧
    (nickCmd ⟨[("alice", 0)], [("lobby", ["alice"])]⟩ 0
        (some "alice") "carol").writes = [(0, nickSetMsg "carol")] ∧
    (nickCmd ⟨[("alice", 0)], [("lobby", ["alice"])]⟩ 0
        (some "alice") "carol").quit = false :=
  C5_rename_atomic ⟨[("alice", 0)], [("lobby", ["alice"])]⟩ 0 "alice" "carol"
    (by decide) (by decide) (by decide) (by decide) (by decide)

/-! Preservation of the per-session invariant by every command branch. -/

theorem dictMem_dictInsert_mono {α : Type} {d : List (String × α)} {k m : String} {v : α}
    (h : dictMem d m = true) : dictMem (dictInsert d k v) m = true := by
  by_cases hmk : m = k
  · subst hmk
    exact dictMem_dictInsert_self _ _ _
  · rwa [dictMem_dictInsert_of_ne hmk]

theorem sendCmd_effects (st : ServerState) (sock : Nat) (nickname : Option String)
    (channel msg : String) :
    (sendCmd st sock nickname channel msg).st = st ∧
    (sendCmd st sock nickname channel msg).nick = nickname ∧
    (sendCmd st sock nickname channel msg).quit = false := by
  unfold sendCmd
  split
  · exact ⟨rfl, rfl, rfl⟩
  · dsimp only
    split
    · exact ⟨rfl, rfl, rfl⟩
    · exact ⟨rfl, rfl, rfl⟩

theorem pmCmd_effects (st : ServerState) (sock : Nat) (nickname : Option String)
    (target msg : String) :
    (pmCmd st sock nickname target msg).st = st ∧
    (pmCmd st sock nickname target msg).nick = nickname ∧
    (pmCmd st sock nickname target msg).quit = false := by
  unfold pmCmd
  split
  · exact ⟨rfl, rfl, rfl⟩
  · exact ⟨rfl, rfl, rfl⟩

theorem nickCmd_quit (st : ServerState) (sock : Nat) (nickname : Option String)
    (desired : String) : (nickCmd st sock nickname desired).quit = false := by
  unfold nickCmd
  split
  · rfl
  · split
    · rfl
    · rfl

theorem joinCmd_quit (st : ServerState) (sock : Nat) (nickname : Option String)
    (channel : String) : (joinCmd st sock nickname channel).quit = false := by
  unfold joinCmd
  split
  · rfl
  · split
    · rfl
    · rfl

theorem SInv_nickCmd {st : ServerState} {nick : Option String} (sock : Nat) (d : String)
    (h : SInv st nick) :
    SInv (nickCmd st sock nick d).st (nickCmd st sock nick d).nick := by
  obtain ⟨hnd, hmem, hnick⟩ := h
  by_cases hd : (d == "") = true
  · unfold nickCmd
    rw [if_pos hd]
    exact ⟨hnd, hmem, hnick⟩
  · by_cases hdm : dictMem st.clients d = true
    · unfold nickCmd
      rw [if_neg hd, if_pos hdm]
      exact ⟨hnd, hmem, hnick⟩
    · have hdne : d ≠ "" := by
        rw [Bool.not_eq_true, beq_eq_false_iff_ne] at hd
        exact hd
      cases nick with
      | none =>
        have hres : nickCmd st sock none d =
            ⟨⟨dictInsert st.clients d sock, st.channels⟩, some d,
              [(sock, nickSetMsg d)], false⟩ := by
          unfold nickCmd
          rw [if_neg hd, if_neg hdm]
        rw [hres]
        refine ⟨hnd, ?_, hdne, dictMem_dictInsert_self _ _ _⟩
        intro p hp m hm
        exact dictMem_dictInsert_mono (hmem p hp m hm)
      | some old =>
        obtain ⟨holdne, holdmem⟩ := hnick
        have hold : (!(old == "") && dictMem st.clients old) = true := by
          rw [Bool.and_eq_true, Bool.not_eq_true', beq_eq_false_iff_ne]
          exact ⟨holdne, holdmem⟩
        have hres : nickCmd st sock (some old) d =
            ⟨⟨dictInsert (dictDelete st.clients old) d sock, removeFromAll st.channels old⟩,
              some d, [(sock, nickSetMsg d)], false⟩ := by
          unfold nickCmd
          rw [if_neg hd, if_neg hdm]
          simp [hold]
        rw [hres]
        refine ⟨?_, ?_, hdne, dictMem_dictInsert_self _ _ _⟩
        · intro p hp
          unfold removeFromAll at hp
          rw [List.mem_map] at hp
          obtain ⟨q, hq, hpq⟩ := hp
          rw [← hpq]
          exact nodup_setDiscard (hnd q hq)
        · intro p hp m hm
          unfold removeFromAll at hp
          rw [List.mem_map] at hp
          obtain ⟨q, hq, hpq⟩ := hp
          rw [← hpq] at hm
          have hmq : m ∈ q.2 := mem_setDiscard hm
          have hmold : m ≠ old := by
            intro he
            rw [he] at hm
            exact not_mem_setDiscard_self (hnd q hq) hm
          by_cases hmd : m = d
          · rw [hmd]
            exact dictMem_dictInsert_self _ _ _
          · rw [dictMem_dictInsert_of_ne hmd, dictMem_dictDelete_of_ne hmold]
            exact hmem q hq m hmq

theorem SInv_joinCmd {st : ServerState} {nick : Option String} (sock : Nat) (c : String)
    (h : SInv st nick) :
    SInv (joinCmd st sock nick c).st (joinCmd st sock nick c).nick := by
  obtain ⟨hnd, hmem, hnick⟩ := h
  by_cases hc : (c == "") = true
  · unfold joinCmd
    rw [if_pos hc]
    exact ⟨hnd, hmem, hnick⟩
  · cases nick with
    | none =>
      unfold joinCmd
      rw [if_neg hc, if_pos (by simp [nickTruthy])]
      exact ⟨hnd, hmem, hnick⟩
    | some nk =>
      obtain ⟨hnkne, hnkmem⟩ := hnick
      have htr : nickTruthy (some nk) = true := by
        simp [nickTruthy, beq_eq_false_iff_ne.mpr hnkne]
      have hres : joinCmd st sock (some nk) c =
          ⟨⟨st.clients, dictInsert st.channels c
              (setAdd ((dictLookup st.channels c).getD []) nk)⟩,
            some nk, [(sock, joinedMsg c)], false⟩ := by
        unfold joinCmd
        rw [if_neg hc, if_neg (by simp [htr])]
        rfl
      rw [hres]
      refine ⟨?_, ?_, hnkne, hnkmem⟩
      · intro p hp
        rcases mem_dictInsert hp with hp1 | hp1
        · exact hnd p hp1
        · rw [hp1]
          apply nodup_setAdd
          cases hlk : dictLookup st.channels c with
          | none => simp
          | some ms =>
            have hms := hnd (c, ms) (dictLookup_mem hlk)
            simpa using hms
      · intro p hp m hm
        rcases mem_dictInsert hp with hp1 | hp1
        · exact hmem p hp1 m hm
        · rw [hp1] at hm
          rcases mem_setAdd.mp hm with hm1 | hm1
          · cases hlk : dictLookup st.channels c with
            | none =>
              rw [hlk] at hm1
              simp at hm1
            | some ms =>
              rw [hlk, Option.getD_some] at hm1
              exact hmem (c, ms) (dictLookup_mem hlk) m hm1
          · rw [hm1]
            exact hnkmem

theorem SInv_dispatch {st : ServerState} {nick : Option String} (sock : Nat)
    (message : List Char) (h : SInv st nick) :
    SInv (dispatchMessage st sock nick message).st
      (dispatchMessage st sock nick message).nick := by
  unfold dispatchMessage
  split
  · exact h
  · split
    · exact SInv_nickCmd sock _ h
    · split
      · exact SInv_joinCmd sock _ h
      · split
        · split
          · exact h
          · rw [(sendCmd_effects st sock nick _ _).1, (sendCmd_effects st sock nick _ _).2.1]
            exact h
        · split
          · split
            · exact h
            · rw [(pmCmd_effects st sock nick _ _).1, (pmCmd_effects st sock nick _ _).2.1]
              exact h
          · split
            · exact h
            · exact h

theorem SInv_handleLine {st : ServerState} {nick : Option String} (sock : Nat) (l : String)
    (h : SInv st nick) :
    SInv (handleLine st sock nick l).st (handleLine st sock nick l).nick :=
  SInv_dispatch sock (pyStrip l.data) h

/-! The cleanup block, on a state satisfying the invariant. -/

theorem cleanup_removes {st : ServerState} {n : String} (hn : n ≠ "")
    (hnd : ∀ p ∈ st.channels, p.2.Nodup)
    (hmem : ∀ p ∈ st.channels, ∀ m ∈ p.2, dictMem st.clients m = true) :
    dictMem (cleanup st (some n)).clients n = false ∧
    (∀ p ∈ (cleanup st (some n)).channels, n ∉ p.2) := by
  have htr : nickTruthy (some n) = true := by
    simp [nickTruthy, beq_eq_false_iff_ne.mpr hn]
  by_cases hm : dictMem st.clients n = true
  · have hres : cleanup st (some n) =
        ⟨dictDelete st.clients n, removeFromAll st.channels n⟩ := by
      unfold cleanup
      rw [if_pos (by simp [htr, hm])]
      rfl
    rw [hres]
    constructor
    · exact dictMem_dictDelete_self _ _
    · intro p hp
      unfold removeFromAll at hp
      rw [List.mem_map] at hp
      obtain ⟨q, hq, hpq⟩ := hp
      rw [← hpq]
      exact not_mem_setDiscard_self (hnd q hq)
  · have hres : cleanup st (some n) = st := by
      unfold cleanup
      rw [if_neg (by simp [htr, hm])]
    rw [hres]
    constructor
    · simpa using hm
    · intro p hp hn2
      exact hm (hmem p hp n hn2)

/-! Claim C4. -/

theorem runSession_closed_factors (evs : List Event) (st : ServerState) (sock : Nat)
    (nick : Option String) (st2 : ServerState) (ws : List (Nat × String))
    (hrun : runSession st sock nick evs = .closed st2 ws) (hinv : SInv st nick) :
    ∃ stPre nickPre, SInv stPre nickPre ∧ st2 = cleanup stPre nickPre := by
  induction evs generalizing st nick ws with
  | nil => simp [runSession] at hrun
  | cons e rest ih =>
    cases e with
    | disconnect =>
      simp only [runSession] at hrun
      obtain ⟨h1, h2⟩ := LoopResult.closed.inj hrun
      exact ⟨st, nick, hinv, h1.symm⟩
    | exn =>
      simp only [runSession] at hrun
      exact LoopResult.noConfusion hrun
    | line l =>
      simp only [runSession] at hrun
      split at hrun
      · obtain ⟨h1, h2⟩ := LoopResult.closed.inj hrun
        exact ⟨(handleLine st sock nick l).st, (handleLine st sock nick l).nick,
          SInv_handleLine sock l hinv, h1.symm⟩
      · split at hrun
        · next st3 ws3 heq =>
          obtain ⟨h1, h2⟩ := LoopResult.closed.inj hrun
          subst h1
          exact ih _ _ ws3 heq (SInv_handleLine sock l hinv)
        · exact LoopResult.noConfusion hrun
        · exact LoopResult.noConfusion hrun

/-- Claim C4, at the failing input: a session registers eve, and the next
loop iteration raises an uncaught exception — for example the client sends
the single byte 0xff, so data.decode() at server.py line 68 raises
UnicodeDecodeError; the try around recv catches only ConnectionResetError,
and no sendall is guarded at all.  The handler unwinds past the cleanup block
of lines 159-165 (there is no try/finally), so the run ends unwound with eve
still in the session registry, and a fresh connection attempting /nick eve is
rejected with the name-taken line — the guaranteed cleanup and the immediate
reusability that the claim asserts fail on this exit path.  (On the exit
paths the loop leaves by break — /quit and disconnect — cleanup does run, per
runSession_closed_factors.) -/
theorem C4_missing_cleanup_on_exn :
    runSession ⟨[], []⟩ 0 none [.line "/nick eve", .exn] =
      .unwound ⟨[("eve", 0)], []⟩ [(0, nickSetMsg "eve")] ∧
    dictMem (ServerState.mk [("eve", 0)] []).clients "eve" = true ∧
    nickCmd ⟨[("eve", 0)], []⟩ 1 none "eve" =
      ⟨⟨[("eve", 0)], []⟩, none, [(1, takenMsg)], false⟩ := by
  exact ⟨by decide, rfl, by decide⟩

/-! Claim C9: the whole-server inductive invariant. -/

theorem joinCmd_nick (st : ServerState) (sock : Nat) (nickname : Option String)
    (channel : String) : (joinCmd st sock nickname channel).nick = nickname := by
  unfold joinCmd
  split
  · rfl
  · split
    · rfl
    · rfl

theorem handleLine_shape (st : ServerState) (sock : Nat) (nick : Option String)
    (l : String) :
    ((handleLine st sock nick l).st = st ∧ (handleLine st sock nick l).nick = nick) ∨
    (∃ d, handleLine st sock nick l = nickCmd st sock nick d) ∨
    (∃ c, handleLine st sock nick l = joinCmd st sock nick c) := by
  unfold handleLine dispatchMessage
  split
  · exact Or.inl ⟨rfl, rfl⟩
  · split
    · exact Or.inr (Or.inl ⟨_, rfl⟩)
    · split
      · exact Or.inr (Or.inr ⟨_, rfl⟩)
      · split
        · split
          · exact Or.inl ⟨rfl, rfl⟩
          · exact Or.inl ⟨(sendCmd_effects st sock nick _ _).1,
              (sendCmd_effects st sock nick _ _).2.1⟩
        · split
          · split
            · exact Or.inl ⟨rfl, rfl⟩
            · exact Or.inl ⟨(pmCmd_effects st sock nick _ _).1,
                (pmCmd_effects st sock nick _ _).2.1⟩
          · split
            · exact Or.inl ⟨rfl, rfl⟩
            · exact Or.inl ⟨rfl, rfl⟩

theorem findSession_mem {sys : Sys} {sock : Nat} {nick : Option String}
    (h : findSession sys sock = some nick) : (sock, nick) ∈ sys.sessions := by
  unfold findSession at h
  rw [Option.map_eq_some'] at h
  obtain ⟨⟨a, b⟩, hp, hp2⟩ := h
  have hm := List.mem_of_find?_eq_some hp
  have hb := List.find?_some hp
  rw [beq_iff_eq] at hb
  cases hp2
  rw [← hb]
  exact hm

theorem mem_sessionsUpd {ss : List (Nat × Option String)} {sock : Nat} {n : Option String}
    {q : Nat × Option String} (h : q ∈ sessionsUpd ss sock n) :
    (q ∈ ss ∧ (q.1 == sock) = false) ∨ q = (sock, n) := by
  unfold sessionsUpd at h
  rw [List.mem_map] at h
  obtain ⟨p, hp, hfp⟩ := h
  split at hfp
  · right
    exact hfp.symm
  · next hps =>
    left
    rw [← hfp]
    exact ⟨hp, by simpa using hps⟩

theorem keys_sessionsUpd (ss : List (Nat × Option String)) (sock : Nat)
    (n : Option String) :
    (sessionsUpd ss sock n).map (fun p => p.1) = ss.map (fun p => p.1) := by
  unfold sessionsUpd
  rw [List.map_map]
  apply List.map_congr_left
  intro p _
  by_cases hp : (p.1 == sock) = true
  · simp only [Function.comp, if_pos hp]
    exact ((beq_iff_eq).mp hp).symm
  · simp only [Function.comp, if_neg hp]

theorem InvSys_unchanged {sys : Sys} {sock : Nat} {nick : Option String}
    (h : InvSys sys) (hfind : findSession sys sock = some nick) :
    InvSys ⟨sys.server, sessionsUpd sys.sessions sock nick⟩ := by
  obtain ⟨I1, I2, I3, I4, I5⟩ := h
  have hsess := findSession_mem hfind
  refine ⟨I1, ?_, I3, ?_, ?_⟩
  · intro q hq
    rcases mem_sessionsUpd hq with ⟨hq1, _⟩ | hq1
    · exact I2 q hq1
    · rw [hq1]
      exact I2 (sock, nick) hsess
  · intro q hq q2 hq2 hne
    have hq3 : q ∈ sys.sessions := by
      rcases mem_sessionsUpd hq with ⟨h1, _⟩ | h1
      · exact h1
      · rw [h1]; exact hsess
    have hq4 : q2 ∈ sys.sessions := by
      rcases mem_sessionsUpd hq2 with ⟨h1, _⟩ | h1
      · exact h1
      · rw [h1]; exact hsess
    exact I4 q hq3 q2 hq4 hne
  · rw [keys_sessionsUpd]
    exact I5

theorem InvSys_cleanup {sys : Sys} {sock : Nat} {nick : Option String}
    (h : InvSys sys) (hfind : findSession sys sock = some nick) :
    InvSys ⟨cleanup sys.server nick,
      sys.sessions.filter (fun p => !(p.1 == sock))⟩ := by
  obtain ⟨I1, I2, I3, I4, I5⟩ := h
  have hsess := findSession_mem hfind
  have hfilter : ∀ q : Nat × Option String,
      q ∈ sys.sessions.filter (fun p => !(p.1 == sock)) →
        q ∈ sys.sessions ∧ q.1 ≠ sock := by
    intro q hq
    rw [List.mem_filter] at hq
    refine ⟨hq.1, ?_⟩
    have h2 := hq.2
    rw [Bool.not_eq_true'] at h2
    rw [← beq_eq_false_iff_ne]
    exact h2
  have hkeys : ((sys.sessions.filter (fun p => !(p.1 == sock))).map
      (fun p => p.1)).Nodup :=
    List.Nodup.sublist (List.Sublist.map _ (List.filter_sublist _)) I5
  cases nick with
  | none =>
    have hcl : cleanup sys.server none = sys.server := by
      unfold cleanup
      rw [if_neg (by simp [nickTruthy])]
    rw [hcl]
    refine ⟨I1, ?_, I3, ?_, hkeys⟩
    · intro q hq
      exact I2 q (hfilter q hq).1
    · intro q hq q2 hq2 hne
      exact I4 q (hfilter q hq).1 q2 (hfilter q2 hq2).1 hne
  | some nn =>
    have hnOk := I2 (sock, some nn) hsess
    obtain ⟨hnne, hnmem⟩ := hnOk
    have hcl : cleanup sys.server (some nn) =
        ⟨dictDelete sys.server.clients nn, removeFromAll sys.server.channels nn⟩ := by
      unfold cleanup
      rw [if_pos (by simp [nickTruthy, beq_eq_false_iff_ne.mpr hnne, hnmem])]
      rfl
    rw [hcl]
    refine ⟨?_, ?_, ?_, ?_, hkeys⟩
    · intro p hp m hm
      unfold removeFromAll at hp
      rw [List.mem_map] at hp
      obtain ⟨q, hq, hpq⟩ := hp
      rw [← hpq] at hm
      have hmq : m ∈ q.2 := mem_setDiscard hm
      have hmn : m ≠ nn := by
        intro he
        rw [he] at hm
        exact not_mem_setDiscard_self (I3 q hq) hm
      rw [dictMem_dictDelete_of_ne hmn]
      exact I1 q hq m hmq
    · intro q hq
      obtain ⟨hqss, hqsock⟩ := hfilter q hq
      cases hv : q.2 with
      | none => trivial
      | some s =>
        have hsOk := I2 q hqss
        rw [hv] at hsOk
        obtain ⟨hsne, hsmem⟩ := hsOk
        have hsn : s ≠ nn := by
          intro he
          rcases I4 q hqss (sock, some nn) hsess hqsock with h1 | h1
          · rw [hv] at h1
            exact Option.noConfusion h1
          · apply h1
            rw [hv, he]
        exact ⟨hsne, by rw [dictMem_dictDelete_of_ne hsn]; exact hsmem⟩
    · intro p hp
      unfold removeFromAll at hp
      rw [List.mem_map] at hp
      obtain ⟨q, hq, hpq⟩ := hp
      rw [← hpq]
      exact nodup_setDiscard (I3 q hq)
    · intro q hq q2 hq2 hne
      exact I4 q (hfilter q hq).1 q2 (hfilter q2 hq2).1 hne

theorem sessionsUpd_uniq {sys : Sys} {sock : Nat} {d : String}
    (I2 : ∀ q ∈ sys.sessions, nickOk sys.server q.2)
    (I4 : ∀ q ∈ sys.sessions, ∀ q2 ∈ sys.sessions, q.1 ≠ q2.1 →
        q.2 = none ∨ q.2 ≠ q2.2)
    (hdm : ¬ dictMem sys.server.clients d = true) :
    ∀ q ∈ sessionsUpd sys.sessions sock (some d),
      ∀ q2 ∈ sessionsUpd sys.sessions sock (some d),
        q.1 ≠ q2.1 → q.2 = none ∨ q.2 ≠ q2.2 := by
  intro q hq q2 hq2 hne
  rcases mem_sessionsUpd hq with ⟨hqo, _⟩ | hqn
  · rcases mem_sessionsUpd hq2 with ⟨hq2o, _⟩ | hq2n
    · exact I4 q hqo q2 hq2o hne
    · cases hv : q.2 with
      | none => exact Or.inl rfl
      | some s =>
        right
        rw [hq2n]
        intro hcon
        have hsOk := I2 q hqo
        rw [hv] at hsOk
        obtain ⟨_, hsmem⟩ := hsOk
        rw [Option.some.inj hcon] at hsmem
        exact hdm hsmem
  · rcases mem_sessionsUpd hq2 with ⟨hq2o, _⟩ | hq2n
    · right
      rw [hqn]
      cases hv : q2.2 with
      | none => simp
      | some s =>
        intro hcon
        have hsOk := I2 q2 hq2o
        rw [hv] at hsOk
        obtain ⟨_, hsmem⟩ := hsOk
        rw [← Option.some.inj hcon] at hsmem
        exact hdm hsmem
    · exfalso
      apply hne
      rw [hqn, hq2n]

theorem InvSys_nickCmd_sys {sys : Sys} {sock : Nat} {nick : Option String} (d : String)
    (h : InvSys sys) (hfind : findSession sys sock = some nick) :
    InvSys ⟨(nickCmd sys.server sock nick d).st,
      sessionsUpd sys.sessions sock (nickCmd sys.server sock nick d).nick⟩ := by
  obtain ⟨I1, I2, I3, I4, I5⟩ := h
  have hsess := findSession_mem hfind
  by_cases hd : (d == "") = true
  · have hres : nickCmd sys.server sock nick d =
        ⟨sys.server, nick, [(sock, emptyNickMsg)], false⟩ := by
      unfold nickCmd
      rw [if_pos hd]
    rw [hres]
    exact InvSys_unchanged ⟨I1, I2, I3, I4, I5⟩ hfind
  · by_cases hdm : dictMem sys.server.clients d = true
    · have hres : nickCmd sys.server sock nick d =
          ⟨sys.server, nick, [(sock, takenMsg)], false⟩ := by
        unfold nickCmd
        rw [if_neg hd, if_pos hdm]
      rw [hres]
      exact InvSys_unchanged ⟨I1, I2, I3, I4, I5⟩ hfind
    · have hdne : d ≠ "" := by
        rw [Bool.not_eq_true, beq_eq_false_iff_ne] at hd
        exact hd
      cases nick with
      | none =>
        have hres : nickCmd sys.server sock none d =
            ⟨⟨dictInsert sys.server.clients d sock, sys.server.channels⟩, some d,
              [(sock, nickSetMsg d)], false⟩ := by
          unfold nickCmd
          rw [if_neg hd, if_neg hdm]
        rw [hres]
        refine ⟨?_, ?_, I3, ?_, ?_⟩
        · intro p hp m hm
          exact dictMem_dictInsert_mono (I1 p hp m hm)
        · intro q hq
          rcases mem_sessionsUpd hq with ⟨hqo, _⟩ | hqn
          · cases hv : q.2 with
            | none => trivial
            | some s =>
              have hsOk := I2 q hqo
              rw [hv] at hsOk
              obtain ⟨hsne, hsmem⟩ := hsOk
              exact ⟨hsne, dictMem_dictInsert_mono hsmem⟩
          · rw [hqn]
            exact ⟨hdne, dictMem_dictInsert_self _ _ _⟩
        · exact sessionsUpd_uniq I2 I4 hdm
        · rw [keys_sessionsUpd]
          exact I5
      | some old =>
        have holdOk := I2 (sock, some old) hsess
        obtain ⟨holdne, holdmem⟩ := holdOk
        have hold : (!(old == "") && dictMem sys.server.clients old) = true := by
          rw [Bool.and_eq_true, Bool.not_eq_true', beq_eq_false_iff_ne]
          exact ⟨holdne, holdmem⟩
        have hres : nickCmd sys.server sock (some old) d =
            ⟨⟨dictInsert (dictDelete sys.server.clients old) d sock,
                removeFromAll sys.server.channels old⟩, some d,
              [(sock, nickSetMsg d)], false⟩ := by
          unfold nickCmd
          rw [if_neg hd, if_neg hdm]
          simp [hold]
        rw [hres]
        have hothold : ∀ q : Nat × Option String, q ∈ sys.sessions → q.1 ≠ sock →
            ∀ s, q.2 = some s → s ≠ old := by
          intro q hq hqs s hs hcontra
          rcases I4 q hq (sock, some old) hsess hqs with h1 | h1
          · rw [hs] at h1
            exact Option.noConfusion h1
          · apply h1
            rw [hs, hcontra]
        refine ⟨?_, ?_, ?_, ?_, ?_⟩
        · intro p hp m hm
          unfold removeFromAll at hp
          rw [List.mem_map] at hp
          obtain ⟨q, hq, hpq⟩ := hp
          rw [← hpq] at hm
          have hmq : m ∈ q.2 := mem_setDiscard hm
          have hmold : m ≠ old := by
            intro he
            rw [he] at hm
            exact not_mem_setDiscard_self (I3 q hq) hm
          by_cases hmd : m = d
          · rw [hmd]
            exact dictMem_dictInsert_self _ _ _
          · rw [dictMem_dictInsert_of_ne hmd, dictMem_dictDelete_of_ne hmold]
            exact I1 q hq m hmq
        · intro q hq
          rcases mem_sessionsUpd hq with ⟨hqo, hqs⟩ | hqn
          · have hqsock : q.1 ≠ sock := by
              rw [← beq_eq_false_iff_ne]
              exact hqs
            cases hv : q.2 with
            | none => trivial
            | some s =>
              have hsOk := I2 q hqo
              rw [hv] at hsOk
              obtain ⟨hsne, hsmem⟩ := hsOk
              have hsold : s ≠ old := hothold q hqo hqsock s hv
              have hsd : s ≠ d := by
                intro he
                rw [he] at hsmem
                exact hdm hsmem
              exact ⟨hsne, by
                rw [dictMem_dictInsert_of_ne hsd, dictMem_dictDelete_of_ne hsold]
                exact hsmem⟩
          · rw [hqn]
            exact ⟨hdne, dictMem_dictInsert_self _ _ _⟩
        · intro p hp
          unfold removeFromAll at hp
          rw [List.mem_map] at hp
          obtain ⟨q, hq, hpq⟩ := hp
          rw [← hpq]
          exact nodup_setDiscard (I3 q hq)
        · exact sessionsUpd_uniq I2 I4 hdm
        · rw [keys_sessionsUpd]
          exact I5

theorem InvSys_joinCmd_sys {sys : Sys} {sock : Nat} {nick : Option String} (c : String)
    (h : InvSys sys) (hfind : findSession sys sock = some nick) :
    InvSys ⟨(joinCmd sys.server sock nick c).st,
      sessionsUpd sys.sessions sock (joinCmd sys.server sock nick c).nick⟩ := by
  obtain ⟨I1, I2, I3, I4, I5⟩ := h
  have hsess := findSession_mem hfind
  rw [joinCmd_nick]
  by_cases hc : (c == "") = true
  · have hres : (joinCmd sys.server sock nick c).st = sys.server := by
      unfold joinCmd
      rw [if_pos hc]
    rw [hres]
    exact InvSys_unchanged ⟨I1, I2, I3, I4, I5⟩ hfind
  · cases nick with
    | none =>
      have hres : (joinCmd sys.server sock none c).st = sys.server := by
        unfold joinCmd
        rw [if_neg hc, if_pos (by simp [nickTruthy])]
      rw [hres]
      exact InvSys_unchanged ⟨I1, I2, I3, I4, I5⟩ hfind
    | some nk =>
      have hnkOk := I2 (sock, some nk) hsess
      obtain ⟨hnkne, hnkmem⟩ := hnkOk
      have htr : nickTruthy (some nk) = true := by
        simp [nickTruthy, beq_eq_false_iff_ne.mpr hnkne]
      have hres : (joinCmd sys.server sock (some nk) c).st =
          ⟨sys.server.clients, dictInsert sys.server.channels c
            (setAdd ((dictLookup sys.server.channels c).getD []) nk)⟩ := by
        unfold joinCmd
        rw [if_neg hc, if_neg (by simp [htr])]
        rfl
      rw [hres]
      refine ⟨?_, ?_, ?_, ?_, ?_⟩
      · intro p hp m hm
        rcases mem_dictInsert hp with hp1 | hp1
        · exact I1 p hp1 m hm
        · rw [hp1] at hm
          rcases mem_setAdd.mp hm with hm1 | hm1
          · cases hlk : dictLookup sys.server.channels c with
            | none =>
              rw [hlk] at hm1
              simp at hm1
            | some ms =>
              rw [hlk, Option.getD_some] at hm1
              exact I1 (c, ms) (dictLookup_mem hlk) m hm1
          · rw [hm1]
            exact hnkmem
      · intro q hq
        rcases mem_sessionsUpd hq with ⟨hqo, _⟩ | hqn
        · cases hv : q.2 with
          | none => trivial
          | some s =>
            have hsOk := I2 q hqo
            rw [hv] at hsOk
            exact hsOk
        · rw [hqn]
          exact ⟨hnkne, hnkmem⟩
      · intro p hp
        rcases mem_dictInsert hp with hp1 | hp1
        · exact I3 p hp1
        · rw [hp1]
          apply nodup_setAdd
          cases hlk : dictLookup sys.server.channels c with
          | none => simp
          | some ms =>
            have hms := I3 (c, ms) (dictLookup_mem hlk)
            simpa using hms
      · intro q hq q2 hq2 hne
        have hq3 : q ∈ sys.sessions := by
          rcases mem_sessionsUpd hq with ⟨h1, _⟩ | h1
          · exact h1
          · rw [h1]; exact hsess
        have hq4 : q2 ∈ sys.sessions := by
          rcases mem_sessionsUpd hq2 with ⟨h1, _⟩ | h1
          · exact h1
          · rw [h1]; exact hsess
        exact I4 q hq3 q2 hq4 hne
      · rw [keys_sessionsUpd]
        exact I5

theorem InvSys_step (sys : Sys) (e : SysEvent) (h : InvSys sys) :
    InvSys (sysStep sys e) := by
  cases e with
  | connect sock =>
    simp only [sysStep]
    split
    · exact h
    · next hany =>
      obtain ⟨I1, I2, I3, I4, I5⟩ := h
      refine ⟨I1, ?_, I3, ?_, ?_⟩
      · intro q hq
        rcases List.mem_append.mp hq with hq1 | hq1
        · exact I2 q hq1
        · rw [List.mem_singleton] at hq1
          rw [hq1]
          trivial
      · intro q hq q2 hq2 hne
        rcases List.mem_append.mp hq with hq1 | hq1
        · rcases List.mem_append.mp hq2 with hq2a | hq2a
          · exact I4 q hq1 q2 hq2a hne
          · rw [List.mem_singleton] at hq2a
            cases hv : q.2 with
            | none => exact Or.inl rfl
            | some s =>
              right
              rw [hq2a]
              simp
        · rw [List.mem_singleton] at hq1
          rw [hq1]
          exact Or.inl rfl
      · rw [List.map_append, List.nodup_append]
        refine ⟨I5, by simp, ?_⟩
        intro a ha hb
        simp only [List.map_cons, List.map_nil, List.mem_singleton] at hb
        subst hb
        apply hany
        rw [List.any_eq_true]
        rw [List.mem_map] at ha
        obtain ⟨p, hp, hpk⟩ := ha
        refine ⟨p, hp, ?_⟩
        rw [beq_iff_eq]
        exact hpk
  | line sock l =>
    simp only [sysStep]
    split
    · exact h
    · next nick hfind =>
      rcases handleLine_shape sys.server sock nick l with hsh | ⟨d, hd⟩ | ⟨c, hc⟩
      · by_cases hq : (handleLine sys.server sock nick l).quit = true
        · rw [if_pos hq, hsh.1, hsh.2]
          exact InvSys_cleanup h hfind
        · rw [if_neg hq, hsh.1, hsh.2]
          exact InvSys_unchanged h hfind
      · rw [hd, if_neg (by rw [nickCmd_quit]; exact Bool.false_ne_true)]
        exact InvSys_nickCmd_sys d h hfind
      · rw [hc, if_neg (by rw [joinCmd_quit]; exact Bool.false_ne_true)]
        exact InvSys_joinCmd_sys c h hfind
  | disconnect sock =>
    simp only [sysStep]
    split
    · exact h
    · next nick hfind =>
      exact InvSys_cleanup h hfind

theorem InvSys_reachable {sys : Sys} (h : Reachable sys) : InvSys sys := by
  induction h with
  | init =>
    refine ⟨?_, ?_, ?_, ?_, ?_⟩ <;> simp [sysInit]
  | step e hr ih =>
    exact InvSys_step _ e ih

/-- Claim C9: in every state reachable from server startup by any sequence of
connects, handled lines and disconnects (each command one atomic step), every
nickname appearing in any channel member set is also a key of the session
registry: joins only add the registered nickname of the caller, and rename
and disconnect cleanup purge the old nickname from every channel in the same
step that removes it from the registry. -/
theorem C9_members_registered (sys : Sys) (h : Reachable sys) :
    ∀ p ∈ sys.server.channels, ∀ n ∈ p.2, dictMem sys.server.clients n = true :=
  (InvSys_reachable h).1

/-- Witness for C9: after connect, /nick alice, /join lobby, the reachable
state has channel lobby with member alice, and alice is registered. -/
theorem C9_witness :
    dictMem (sysStep (sysStep (sysStep sysInit (.connect 0)) (.line 0 "/nick alice"))
      (.line 0 "/join lobby")).server.clients "alice" = true :=
  C9_members_registered _
    (Reachable.step (.line 0 "/join lobby")
      (Reachable.step (.line 0 "/nick alice")
        (Reachable.step (.connect 0) Reachable.init)))
    ("lobby", ["alice"]) (by decide) "alice" (by decide)

/-! Claim C7. -/

/-- Claim C7 (counterexample): the send-time membership check (the lock block
at server.py lines 127-133) and the delivery (the lock block inside
broadcast_channel_message, lines 12-22) are two separate acquisitions of the
global lock, not one critical section.  The schedule check-join-deliver is a
valid interleaving of the /send worker with another worker running /join,
placing the other worker's mutation strictly between the membership check and
the delivery; executed from a state where lobby has alice as its only member,
the check passes, bob joins, and bob then receives the message even though
bob was not a member when the check ran — refuting the claim that no other
worker's mutation can be interleaved between the check and the delivery. -/
theorem C7_counterexample :
    Ilv (sendLockSections 0 "alice" "lobby" "hi")
      [LockAction.joinChannel 1 "bob" "lobby"]
      [LockAction.checkMembership 0 "alice" "lobby",
       LockAction.joinChannel 1 "bob" "lobby",
       LockAction.deliverBroadcast "alice" "lobby" "hi"] ∧
    dictLookup (⟨[("alice", 0), ("bob", 1)],
        [("lobby", ["alice"])]⟩ : ServerState).channels "lobby" = some ["alice"] ∧
    execLockActions (⟨[("alice", 0), ("bob", 1)], [("lobby", ["alice"])]⟩, [])
      [LockAction.checkMembership 0 "alice" "lobby",
       LockAction.joinChannel 1 "bob" "lobby",
       LockAction.deliverBroadcast "alice" "lobby" "hi"] =
      (⟨[("alice", 0), ("bob", 1)], [("lobby", ["alice", "bob"])]⟩,
        [(1, joinedMsg "lobby"), (1, channelLine "lobby" "alice" "hi")]) := by
  refine ⟨?_, rfl, by decide⟩
  exact Ilv.consL _ (Ilv.consR _ (Ilv.consL _ Ilv.nil))

/-- Claim C7 (amended): each individual registry access of /send does run
under the single global lock, but the membership check and the broadcast are
two separate critical sections; between them the lock is free, so another
worker's lock-protected mutation can be interleaved between the check and the
delivery: for every message, a concurrent /join scheduled in that window adds
a member that then receives the broadcast. -/
theorem C7_two_sections (m : String) (sa sb : Nat) :
    ∃ zs, Ilv (sendLockSections sa "alice" "lobby" m)
        [LockAction.joinChannel sb "bob" "lobby"] zs ∧
      zs = [LockAction.checkMembership sa "alice" "lobby",
        LockAction.joinChannel sb "bob" "lobby",
        LockAction.deliverBroadcast "alice" "lobby" m] ∧
      (execLockActions (⟨[("alice", sa), ("bob", sb)], [("lobby", ["alice"])]⟩, [])
          zs).2 =
        [(sb, joinedMsg "lobby"), (sb, channelLine "lobby" "alice" m)] := by
  refine ⟨[LockAction.checkMembership sa "alice" "lobby",
    LockAction.joinChannel sb "bob" "lobby",
    LockAction.deliverBroadcast "alice" "lobby" m],
    Ilv.consL _ (Ilv.consR _ (Ilv.consL _ Ilv.nil)), rfl, ?_⟩
  have h1 : (("alice" : String) == "bob") = false := by decide
  have h2 : (("bob" : String) == "alice") = false := by decide
  simp [execLockActions, execLockAction, sendLockSections, broadcast_channel_message,
    dictMem, dictLookup, dictInsert, setAdd, channelLine, h1, h2,
    List.contains, List.elem, List.find?, List.any]

end ChatApp
